import Mathlib

/-!
Verification development for the branch-instrumentation engine of the
repository (module `pynguin/generation/algorithms/wspy/branch_instrumentation.py`).

The source operates on `bytecode.Instr`/`bytecode.Bytecode` instruction
sequences and Python `CodeType`/`FunctionType` objects.  We embed them
shallowly: instructions are records of an opcode name and an optional
argument, code objects are an instruction list plus a constant pool whose
entries may be nested code objects, and the mutable state of a
`BranchInstrumentation` instance (the two identifier counters plus the calls
it makes to the tracer's registration hooks) is threaded explicitly.  Every
probe insertion is recorded as an `Event`, which is in one-to-one
correspondence with the `insert_before` call and the
`predicate_exists`/`function_exists` registration the source performs at
that point.
-/

namespace Wspy

/-- Argument of a bytecode instruction: a numeric constant, a variable or
method name, a comparison operator (the `Compare` enum of the `bytecode`
library), or a jump label. -/
inductive Arg where
  | num (n : Nat)
  | name (s : String)
  | cmp (op : String)
  | label (l : Nat)
  deriving DecidableEq

/-- A `bytecode.Instr`: an opcode name together with an optional argument. -/
structure Instr where
  name : String
  arg : Option Arg
  deriving DecidableEq

/-- Opcode names for which `bytecode.Instr.is_cond_jump()` returns true
(conditional branches). -/
def condJumpNames : List String :=
  ["JUMP_IF_FALSE", "JUMP_IF_TRUE", "JUMP_IF_FALSE_OR_POP", "JUMP_IF_TRUE_OR_POP",
   "POP_JUMP_IF_FALSE", "POP_JUMP_IF_TRUE"]

/-- `Instr.is_cond_jump()` of the `bytecode` library: membership of the
opcode name in the conditional-jump set. -/
def Instr.is_cond_jump (i : Instr) : Bool :=
  condJumpNames.contains i.name

/-- An element of a `bytecode.Bytecode` sequence: either a concrete
instruction or a non-instruction marker (a jump `Label`).  The source guards
accesses with `isinstance(-, Instr)`, which the `instr`/`label` split models. -/
inductive BInstr where
  | instr (i : Instr)
  | label (l : Nat)
  deriving DecidableEq

/-- Does this sequence element satisfy
`isinstance(x, Instr) and x.is_cond_jump()`? -/
def isCondB : BInstr → Bool
  | .instr i => i.is_cond_jump
  | .label _ => false

/-- Number of conditional-branch instructions in a sequence. -/
def countCondJumps (l : List BInstr) : Nat := l.countP isCondB

/-- One observable action of the instrumenter: insertion of a
function-entered probe, a boolean-predicate probe, or a comparison-predicate
probe, carrying the identifier it consumed (and, for comparisons, the
comparison operator argument passed to the hook). -/
inductive Event where
  | funcEnter (fid : Nat)
  | boolPred (pid : Nat)
  | cmpPred (pid : Nat) (arg : Option Arg)
  deriving DecidableEq

/-- Predicate identifiers emitted by a list of events, in order. -/
def pids (evs : List Event) : List Nat :=
  evs.filterMap fun e =>
    match e with
    | .boolPred n => some n
    | .cmpPred n _ => some n
    | .funcEnter _ => none

/-- Function-entry identifiers emitted by a list of events, in order. -/
def fids (evs : List Event) : List Nat :=
  evs.filterMap fun e =>
    match e with
    | .funcEnter n => some n
    | _ => none

/-- Mutable state of a `BranchInstrumentation` instance: the two independent
identifier counters (`_predicate_id`, `_function_id`) set to `0` in
`__init__`, plus the trace of probe insertions / tracer registrations made
so far. -/
structure InstrState where
  pid : Nat
  fid : Nat
  events : List Event
  deriving DecidableEq

/-- Modelled from the spec: the Sequence Cursor (`ListIterator` of
`pynguin/utils/iterator.py`, which is not part of the provided sources).
It wraps a mutable ordered sequence with a cursor position; `pos` counts
the elements consumed so far, so the current element sits at index
`pos - 1` once at least one advance has occurred. -/
structure ListIterator where
  elements : List BInstr
  pos : Nat
  deriving DecidableEq

namespace ListIterator

/-- Modelled from the spec: `advance`/`next` moves forward and reports
whether an element remained. -/
def next (it : ListIterator) : Bool × ListIterator :=
  if it.pos < it.elements.length then (true, ⟨it.elements, it.pos + 1⟩) else (false, it)

/-- Modelled from the spec: the current element; defined only once at least
one advance has occurred. -/
def current (it : ListIterator) : Option BInstr :=
  if it.pos = 0 then none else (it.elements.drop (it.pos - 1)).head?

/-- Modelled from the spec: report whether an element strictly before the
current one exists. -/
def has_previous (it : ListIterator) : Bool := decide (2 ≤ it.pos)

/-- Modelled from the spec: `peekPrevious`, the element immediately before
the current one; defined only when `has_previous` holds. -/
def previous (it : ListIterator) : Option BInstr :=
  if 2 ≤ it.pos then (it.elements.drop (it.pos - 2)).head? else none

/-- Modelled from the spec: `insertBefore(instructions, offsetFromCurrent)`
splices `ins` immediately before the current element (or `off` positions
further back) and re-synchronises the cursor so that the inserted
instructions are never re-examined and the original current element remains
current. -/
def insert_before (it : ListIterator) (ins : List BInstr) (off : Nat) : ListIterator :=
  ⟨it.elements.take (it.pos - 1 - off) ++ ins ++ it.elements.drop (it.pos - 1 - off),
   it.pos + ins.length⟩

end ListIterator

/-- Instruction sequence of the probe built by `_add_bool_predicate`:
duplicate the branch condition, load the tracer and its
`passed_bool_predicate` method, rotate the duplicate under them, pass the
predicate id, call, and discard the result. -/
def boolPredicateStmts (pid : Nat) : List BInstr :=
  [ .instr ⟨"DUP_TOP", none⟩,
    .instr ⟨"LOAD_GLOBAL", some (Arg.name "tracer")⟩,
    .instr ⟨"LOAD_METHOD", some (Arg.name "passed_bool_predicate")⟩,
    .instr ⟨"ROT_THREE", none⟩,
    .instr ⟨"ROT_THREE", none⟩,
    .instr ⟨"LOAD_CONST", some (Arg.num pid)⟩,
    .instr ⟨"CALL_METHOD", some (Arg.num 2)⟩,
    .instr ⟨"POP_TOP", none⟩ ]

/-- Instruction sequence of the probe built by `_add_cmp_predicate`:
duplicate both comparison operands, load the tracer and its
`passed_cmp_predicate` method, rotate the duplicates under them, pass the
predicate id and the comparison operator, call, and discard the result. -/
def cmpPredicateStmts (pid : Nat) (cmpArg : Option Arg) : List BInstr :=
  [ .instr ⟨"DUP_TOP_TWO", none⟩,
    .instr ⟨"LOAD_GLOBAL", some (Arg.name "tracer")⟩,
    .instr ⟨"LOAD_METHOD", some (Arg.name "passed_cmp_predicate")⟩,
    .instr ⟨"ROT_FOUR", none⟩,
    .instr ⟨"ROT_FOUR", none⟩,
    .instr ⟨"LOAD_CONST", some (Arg.num pid)⟩,
    .instr ⟨"LOAD_CONST", cmpArg⟩,
    .instr ⟨"CALL_METHOD", some (Arg.num 4)⟩,
    .instr ⟨"POP_TOP", none⟩ ]

/-- Instruction sequence of the probe built by `_add_function_entered`:
load the tracer and its `entered_function` method, pass the function id,
call, and discard the result. -/
def functionEnteredStmts (fid : Nat) : List BInstr :=
  [ .instr ⟨"LOAD_GLOBAL", some (Arg.name "tracer")⟩,
    .instr ⟨"LOAD_METHOD", some (Arg.name "entered_function")⟩,
    .instr ⟨"LOAD_CONST", some (Arg.num fid)⟩,
    .instr ⟨"CALL_METHOD", some (Arg.num 1)⟩,
    .instr ⟨"POP_TOP", none⟩ ]

/-- `_add_bool_predicate`: register the predicate id with the tracer, insert
the boolean-predicate probe immediately before the current instruction, and
advance the predicate counter. -/
def addBoolPredicate (b : InstrState) (it : ListIterator) : InstrState × ListIterator :=
  ( { b with pid := b.pid + 1, events := b.events ++ [Event.boolPred b.pid] },
    it.insert_before (boolPredicateStmts b.pid) 0 )

/-- The comparison operator argument `iterator.previous().arg` read by
`_add_cmp_predicate`. -/
def prevCmpArg (it : ListIterator) : Option Arg :=
  match it.previous with
  | some (BInstr.instr p) => p.arg
  | _ => none

/-- `_add_cmp_predicate`: register the predicate id with the tracer, insert
the comparison-predicate probe one position back from the current
instruction (i.e. before the preceding comparison), and advance the
predicate counter. -/
def addCmpPredicate (b : InstrState) (it : ListIterator) : InstrState × ListIterator :=
  ( { b with pid := b.pid + 1, events := b.events ++ [Event.cmpPred b.pid (prevCmpArg it)] },
    it.insert_before (cmpPredicateStmts b.pid (prevCmpArg it)) 1 )

/-- `_add_function_entered`: register the function id with the tracer,
insert the function-entered probe before the current instruction, and
advance the function counter. -/
def addFunctionEntered (b : InstrState) (it : ListIterator) : InstrState × ListIterator :=
  ( { b with fid := b.fid + 1, events := b.events ++ [Event.funcEnter b.fid] },
    it.insert_before (functionEnteredStmts b.fid) 0 )

/-- Does an optional sequence element satisfy
`isinstance(current, Instr) and current.is_cond_jump()`? -/
def isCondJumpElem : Option BInstr → Bool
  | some x => isCondB x
  | none => false

/-- The guard
`code_iter.has_previous() and isinstance(code_iter.previous(), Instr) and
code_iter.previous().name == "COMPARE_OP"` of `_instrument_code_recursive`,
with the same left-to-right short-circuit structure: the `has_previous`
check is consulted before the previous element is inspected. -/
def prevIsCompare (it : ListIterator) : Bool :=
  it.has_previous &&
    (match it.previous with
     | some (BInstr.instr p) => p.name == "COMPARE_OP"
     | _ => false)

/-- Body of one iteration of the walker loop after the function-entered
handling: classify the current element and insert the matching predicate
probe if it is a conditional branch. -/
def handleCurrent (b : InstrState) (it : ListIterator) : InstrState × ListIterator :=
  if isCondJumpElem it.current then
    if prevIsCompare it then addCmpPredicate b it else addBoolPredicate b it
  else (b, it)

/-- One iteration of the `while code_iter.next():` loop of
`_instrument_code_recursive`, after `next()` has succeeded: advance the
cursor, insert the function-entered probe if this is the first iteration,
then classify and handle the current element. -/
def loopStep (b : InstrState) (it : ListIterator) (entered : Bool) : InstrState × ListIterator :=
  let it1 : ListIterator := ⟨it.elements, it.pos + 1⟩
  let p1 := if entered then (b, it1) else addFunctionEntered b it1
  handleCurrent p1.1 p1.2

/-- The `while code_iter.next():` loop of `_instrument_code_recursive`.
The `fuel` argument only makes the recursion structural: every iteration
consumes one not-yet-visited element, and insertions advance the cursor past
the inserted instructions, so the quantity `elements.length - pos` decreases
by exactly one per iteration; `instrumentSeq` below supplies exactly that
much fuel, which therefore never runs out. -/
def instrumentLoopFuel : Nat → InstrState → ListIterator → Bool → InstrState × List BInstr
  | 0, b, it, _ => (b, it.elements)
  | fuel + 1, b, it, entered =>
    if it.pos < it.elements.length then
      let p2 := loopStep b it entered
      instrumentLoopFuel fuel p2.1 p2.2 true
    else (b, it.elements)

/-- The single forward pass of `_instrument_code_recursive` over one unit's
instruction sequence: materialise the sequence into a cursor and run the
walker loop (`function_entered_inserted` starts out false). -/
def instrumentSeq (b : InstrState) (l : List BInstr) : InstrState × List BInstr :=
  instrumentLoopFuel l.length b ⟨l, 0⟩ false

mutual
/-- A Python `CodeType` as `_instrument_code_recursive` sees it: its
constant pool `co_consts` and its instruction sequence
(`Bytecode.from_code`). -/
inductive CodeObj where
  | mk (consts : List ConstEntry) (instrs : List BInstr)

/-- An entry of `co_consts`: either a nested code object (detected in the
source via `hasattr(const, "co_code")`) or a plain constant. -/
inductive ConstEntry where
  | code (c : CodeObj)
  | plain (v : Arg)
end

/-- The `co_consts` rewriting loop of `_instrument_code_recursive`: walk the
constant pool in order, replacing each nested code object with its
instrumented version (`f` is the recursive instrumenter, applied
depth-first) and keeping plain constants in place. -/
def instrumentConstsAux (f : InstrState → CodeObj → InstrState × CodeObj) :
    InstrState → List ConstEntry → InstrState × List ConstEntry
  | b, [] => (b, [])
  | b, ConstEntry.code cc :: rest =>
    let p := f b cc
    let q := instrumentConstsAux f p.1 rest
    (q.1, ConstEntry.code p.2 :: q.2)
  | b, ConstEntry.plain v :: rest =>
    let q := instrumentConstsAux f b rest
    (q.1, ConstEntry.plain v :: q.2)

/-- `_instrument_code_recursive`: first recurse into the nested code objects
of the constant pool, then run the single forward pass over the unit's own
instruction sequence and reassemble the unit.  The `fuel` argument only
bounds the nesting depth of the constant pool so that the recursion is
structural; callers pass `sizeOf` of the code object, which exceeds its
nesting depth, so the `0` case is never reached. -/
def instrumentCodeFuel : Nat → InstrState → CodeObj → InstrState × CodeObj
  | 0, b, c => (b, c)
  | fuel + 1, b, CodeObj.mk consts instrs =>
    let p := instrumentConstsAux (fun b' c' => instrumentCodeFuel fuel b' c') b consts
    let q := instrumentSeq p.1 instrs
    (q.1, CodeObj.mk p.2 q.2)

mutual
/-- Size of a code object: one more than the combined size of its constant
pool; an upper bound (with room to spare) on its nesting depth, used as fuel
for `instrumentCodeFuel`. -/
def codeSize : CodeObj → Nat
  | .mk consts _ => constsSize consts + 1

/-- Combined size of a constant pool. -/
def constsSize : List ConstEntry → Nat
  | [] => 0
  | .code c :: rest => codeSize c + constsSize rest + 1
  | .plain _ :: rest => constsSize rest + 1
end

/-- A value stored in a function's global namespace. -/
inductive PyValue where
  | tracerObj
  | intVal (n : Nat)
  | strVal (s : String)
  deriving DecidableEq

/-- A Python `FunctionType` as `instrument_function` sees it: the attribute
names set on the function object (queried via `hasattr`/`setattr`), its
`__globals__` dictionary, and its `__code__` object. -/
structure PyFunction where
  attrs : List String
  globals : List (String × PyValue)
  code : CodeObj

/-- Assignment into a Python dictionary modelled on an association list:
replace the binding of `k` in place if present, else append it. -/
def dictSet (g : List (String × PyValue)) (k : String) (v : PyValue) :
    List (String × PyValue) :=
  match g with
  | [] => [(k, v)]
  | (k', v') :: rest => if k' = k then (k, v) :: rest else (k', v') :: dictSet rest k v

/-- Lookup in a Python dictionary modelled on an association list. -/
def dictLookup (g : List (String × PyValue)) (k : String) : Option PyValue :=
  match g with
  | [] => none
  | (k', v') :: rest => if k' = k then some v' else dictLookup rest k

/-- One mutation `instrument_function` performs on the function object, in
program order: setting an attribute, binding a global name, or replacing
`__code__`. -/
inductive Mutation where
  | markAttr (a : String)
  | bindGlobal (k : String)
  | replaceCode
  deriving DecidableEq

/-- Result of a call to `instrument_function`: whether the
"Function is already instrumented" assertion passed, the instrumenter state
and function object after the call (both unchanged when the assertion
fails), and the ordered trace of mutations applied to the function. -/
structure InstrumentResult where
  ok : Bool
  st : InstrState
  fn : PyFunction
  trace : List Mutation

/-- `instrument_function`: assert the function is not already instrumented
(failing fatally, before any mutation, otherwise), mark it instrumented,
install the tracer under the fixed name `"tracer"` in its global namespace,
and replace its code with the recursively instrumented code. -/
def instrument_function (b : InstrState) (f : PyFunction) : InstrumentResult :=
  if f.attrs.contains "instrumented" then ⟨false, b, f, []⟩
  else
    let f1 : PyFunction := { f with attrs := f.attrs ++ ["instrumented"] }
    let f2 : PyFunction := { f1 with globals := dictSet f1.globals "tracer" PyValue.tracerObj }
    let r := instrumentCodeFuel (codeSize f.code) b f.code
    ⟨true, r.1, { f2 with code := r.2 },
     [Mutation.markAttr "instrumented", Mutation.bindGlobal "tracer", Mutation.replaceCode]⟩

/-- Classification of one named member returned by `inspect.getmembers`:
a plain function (instrumented directly), a class or a bound method (both
recursed into), or anything else (skipped).  Functions are referred to by an
identifier into the function table, composites by an identifier into the
object graph, so that one function or composite object can be a member of
several objects (shared objects / cyclic graphs). -/
inductive Member where
  | func (fid : Nat)
  | cls (oid : Nat)
  | meth (oid : Nat)
  | plain
  deriving DecidableEq

/-- The reachable object graph: for each object identifier, the ordered
list of named members `inspect.getmembers` reports for it. -/
structure ObjGraph where
  objs : List (Nat × List (String × Member))

/-- Members of an object, as enumerated by `inspect.getmembers`. -/
def lookupMembers (g : ObjGraph) (oid : Nat) : Option (List (String × Member)) :=
  (g.objs.find? fun p => p.1 == oid).map fun p => p.2

/-- State threaded through one `instrument(rootObject)` invocation: the seen
set (Python mutates one `set` in place through the whole recursion), the
mutable function table, the instrumenter state, whether the
double-instrumentation assertion has fired (which aborts the whole walk),
and whether the fuel of the embedded recursion ran out (never, for the fuel
`instrument` supplies; see `instrument_terminates_and_visits_once`). -/
structure WalkSt where
  seen : List Nat
  funcs : List (Nat × PyFunction)
  inst : InstrState
  error : Bool
  fuelOut : Bool

/-- Lookup in the function table. -/
def lookupFunc (fs : List (Nat × PyFunction)) (fid : Nat) : Option PyFunction :=
  (fs.find? fun p => p.1 == fid).map fun p => p.2

/-- Replace a function in the function table. -/
def updateFunc (fs : List (Nat × PyFunction)) (fid : Nat) (f' : PyFunction) :
    List (Nat × PyFunction) :=
  fs.map fun p => if p.1 == fid then (fid, f') else p

/-- The `self.instrument_function(value)` call of the walk: instrument the
function the member refers to; a failed assertion aborts the whole walk
(the `error` flag). -/
def walkInstrumentFunction (st : WalkSt) (fid : Nat) : WalkSt :=
  match lookupFunc st.funcs fid with
  | none => st
  | some f =>
    let r := instrument_function st.inst f
    if r.ok then { st with inst := r.st, funcs := updateFunc st.funcs fid r.fn }
    else { st with error := true }

/-- The `for (_, value) in members:` loop of `instrument`: plain functions
are instrumented directly, classes and methods are recursed into via `f`
(the recursive walk at the next fuel level), everything else is skipped.
Once the assertion has fired the exception propagates, so nothing further
runs. -/
def instrumentMembersAux (f : Nat → WalkSt → WalkSt) :
    List (String × Member) → WalkSt → WalkSt
  | [], st => st
  | (_, m) :: rest, st =>
    if st.error then st
    else
      let st1 :=
        match m with
        | Member.func fid => walkInstrumentFunction st fid
        | Member.cls oid => f oid st
        | Member.meth oid => f oid st
        | Member.plain => st
      instrumentMembersAux f rest st1

/-- `instrument(obj, seen)`: return immediately if the object was already
visited, otherwise add it to the seen set and process its members.  The
`fuel` argument only makes the recursion structural; each level either
returns immediately or permanently moves one object from unseen to seen, so
the fuel `graphFuel` supplied by `instrument` below never runs out (the
`fuelOut` marker records the impossible exhaustion case). -/
def instrumentObjFuel : Nat → ObjGraph → Nat → WalkSt → WalkSt
  | 0, _, _, st => { st with fuelOut := true }
  | fuel + 1, g, oid, st =>
    if st.error then st
    else if oid ∈ st.seen then st
    else
      let st1 : WalkSt := { st with seen := oid :: st.seen }
      match lookupMembers g oid with
      | none => st1
      | some ms => instrumentMembersAux (instrumentObjFuel fuel g) ms st1

/-- Weight of one object of the graph for the fuel bound: visiting it costs
one call plus one call per member. -/
def objWeight (p : Nat × List (String × Member)) : Nat := 1 + p.2.length

/-- Combined weight of the objects not yet seen. -/
def cost (g : ObjGraph) (seen : List Nat) : Nat :=
  ((g.objs.filter fun p => decide (¬ p.1 ∈ seen)).map objWeight).sum

/-- Fuel that always suffices for the whole walk. -/
def graphFuel (g : ObjGraph) : Nat := (g.objs.map objWeight).sum + 1

/-- One top-level `instrument(rootObject)` invocation of a freshly
constructed `BranchInstrumentation` (both identifier counters start at `0`,
the seen set starts empty). -/
def instrument (g : ObjGraph) (funcs0 : List (Nat × PyFunction)) (root : Nat) : WalkSt :=
  instrumentObjFuel (graphFuel g) g root ⟨[], funcs0, ⟨0, 0, []⟩, false, false⟩

/-- CPython (3.8) evaluation-stack effect of the opcodes the probes use;
non-instruction elements (labels) and opcodes the probes never emit
contribute zero. -/
def stackEffect : BInstr → Int
  | .label _ => 0
  | .instr i =>
    match i.name with
    | "DUP_TOP" => 1
    | "DUP_TOP_TWO" => 2
    | "ROT_THREE" => 0
    | "ROT_FOUR" => 0
    | "LOAD_GLOBAL" => 1
    | "LOAD_METHOD" => 1
    | "LOAD_CONST" => 1
    | "CALL_METHOD" =>
      match i.arg with
      | some (Arg.num n) => -(Int.ofNat n) - 1
      | _ => 0
    | "POP_TOP" => -1
    | _ => 0

/-- Net evaluation-stack depth change of an instruction sequence from entry
to exit. -/
def netStackEffect (l : List BInstr) : Int := (l.map stackEffect).sum

/-! Basic lemmas about splicing a sub-sequence into a list, the shape of
`insert_before`. -/

theorem splice_drop {α : Type} (l ins : List α) (q p : Nat) (h : q ≤ p) :
    (l.take q ++ ins ++ l.drop q).drop (p + ins.length) = l.drop p := by
  rcases Nat.le_total q l.length with hq | hq
  · have h2 : p + ins.length = (l.take q ++ ins).length + (p - q) := by
      simp [List.length_append, List.length_take, Nat.min_eq_left hq]
      omega
    rw [h2, List.drop_append, List.drop_drop]
    congr 1
    omega
  · have ht : l.take q = l := List.take_of_length_le hq
    have hd : l.drop q = [] := List.drop_eq_nil_of_le hq
    have hp : l.drop p = [] := List.drop_eq_nil_of_le (Nat.le_trans hq h)
    rw [ht, hd, List.append_nil, hp]
    exact List.drop_eq_nil_of_le (by simp [List.length_append]; omega)

theorem splice_length {α : Type} (l ins : List α) (q : Nat) :
    (l.take q ++ ins ++ l.drop q).length = l.length + ins.length := by
  rcases Nat.le_total q l.length with hq | hq
  · simp [List.length_append, List.length_take, List.length_drop, Nat.min_eq_left hq]
    omega
  · simp [List.length_append, List.length_take, List.length_drop, Nat.min_eq_right hq]
    omega

theorem insert_before_suffix (it : ListIterator) (ins : List BInstr) (off : Nat) :
    (it.insert_before ins off).elements.drop (it.insert_before ins off).pos
      = it.elements.drop it.pos :=
  splice_drop it.elements ins (it.pos - 1 - off) it.pos (by omega)

theorem insert_before_measure (it : ListIterator) (ins : List BInstr) (off : Nat) :
    (it.insert_before ins off).elements.length - (it.insert_before ins off).pos
      = it.elements.length - it.pos := by
  show (it.elements.take (it.pos - 1 - off) ++ ins
        ++ it.elements.drop (it.pos - 1 - off)).length - (it.pos + ins.length)
      = it.elements.length - it.pos
  rw [splice_length]
  omega

theorem insert_before_current (it : ListIterator) (ins : List BInstr) (off : Nat)
    (h1 : 1 ≤ it.pos) :
    (it.insert_before ins off).current = it.current := by
  have hd := splice_drop it.elements ins (it.pos - 1 - off) (it.pos - 1) (by omega)
  simp only [ListIterator.current, ListIterator.insert_before]
  rw [if_neg (by omega), if_neg (by omega)]
  rw [show it.pos + ins.length - 1 = (it.pos - 1) + ins.length from by omega, hd]

/-! Lemmas about the id/event bookkeeping. -/

theorem pids_append (a c : List Event) : pids (a ++ c) = pids a ++ pids c := by
  simp [pids]

theorem fids_append (a c : List Event) : fids (a ++ c) = fids a ++ fids c := by
  simp [fids]

/-! Behaviour of one loop-body step of the walker. -/

theorem handleCurrent_spec (b : InstrState) (it : ListIterator) (h1 : 1 ≤ it.pos) :
    (handleCurrent b it).2.elements.drop (handleCurrent b it).2.pos
        = it.elements.drop it.pos ∧
    (handleCurrent b it).2.elements.length - (handleCurrent b it).2.pos
        = it.elements.length - it.pos ∧
    1 ≤ (handleCurrent b it).2.pos ∧
    ∃ ev,
      (handleCurrent b it).1.pid = b.pid + (if isCondJumpElem it.current then 1 else 0) ∧
      (handleCurrent b it).1.fid = b.fid ∧
      (handleCurrent b it).1.events = b.events ++ ev ∧
      pids ev = List.range' b.pid (if isCondJumpElem it.current then 1 else 0) ∧
      fids ev = [] := by
  unfold handleCurrent
  by_cases hc : isCondJumpElem it.current
  · simp only [hc, if_true]
    by_cases hp : prevIsCompare it
    · simp only [hp, if_true]
      unfold addCmpPredicate
      refine ⟨insert_before_suffix _ _ _, insert_before_measure _ _ _,
        by simp [ListIterator.insert_before]; omega,
        [Event.cmpPred b.pid (prevCmpArg it)], by simp, rfl, rfl, by simp [pids], rfl⟩
    · simp only [hp, if_false]
      unfold addBoolPredicate
      refine ⟨insert_before_suffix _ _ _, insert_before_measure _ _ _,
        by simp [ListIterator.insert_before]; omega,
        [Event.boolPred b.pid], by simp, rfl, rfl, by simp [pids], rfl⟩
  · simp only [hc, if_false]
    exact ⟨rfl, rfl, h1, [], by simp [hc], rfl, by simp, by simp [hc, pids], rfl⟩

theorem addFunctionEntered_spec (b : InstrState) (it : ListIterator) (h1 : 1 ≤ it.pos) :
    (addFunctionEntered b it).2.elements.drop (addFunctionEntered b it).2.pos
        = it.elements.drop it.pos ∧
    (addFunctionEntered b it).2.elements.length - (addFunctionEntered b it).2.pos
        = it.elements.length - it.pos ∧
    1 ≤ (addFunctionEntered b it).2.pos ∧
    (addFunctionEntered b it).2.current = it.current ∧
    (addFunctionEntered b it).1 = ⟨b.pid, b.fid + 1, b.events ++ [Event.funcEnter b.fid]⟩ := by
  unfold addFunctionEntered
  refine ⟨insert_before_suffix _ _ _, insert_before_measure _ _ _,
    by simp [ListIterator.insert_before]; omega,
    insert_before_current _ _ _ h1, rfl⟩

theorem loopStep_spec (b : InstrState) (it : ListIterator) (entered : Bool)
    (cur : BInstr) (rest : List BInstr)
    (hdrop : it.elements.drop it.pos = cur :: rest) :
    (loopStep b it entered).2.elements.drop (loopStep b it entered).2.pos = rest ∧
    (loopStep b it entered).2.elements.length - (loopStep b it entered).2.pos
        = it.elements.length - it.pos - 1 ∧
    1 ≤ (loopStep b it entered).2.pos ∧
    ∃ ev,
      (loopStep b it entered).1.pid = b.pid + (if isCondB cur then 1 else 0) ∧
      (loopStep b it entered).1.fid = b.fid + (if entered then 0 else 1) ∧
      (loopStep b it entered).1.events = b.events ++ ev ∧
      pids ev = List.range' b.pid (if isCondB cur then 1 else 0) ∧
      fids ev = List.range' b.fid (if entered then 0 else 1) := by
  have hlt : it.pos < it.elements.length := by
    by_contra hno
    rw [List.drop_eq_nil_of_le (by omega)] at hdrop
    exact List.noConfusion hdrop
  have hsuffix1 : it.elements.drop (it.pos + 1) = rest := by
    rw [← List.tail_drop, hdrop]
    rfl
  have hcur1 : (⟨it.elements, it.pos + 1⟩ : ListIterator).current = some cur := by
    simp only [ListIterator.current]
    rw [if_neg (by omega), Nat.add_sub_cancel, hdrop]
    rfl
  cases entered with
  | true =>
    have hstep : loopStep b it true = handleCurrent b ⟨it.elements, it.pos + 1⟩ := rfl
    obtain ⟨hs, hm, hpos, ev, hpid, hfid, hev, hpids, hfids⟩ :=
      handleCurrent_spec b ⟨it.elements, it.pos + 1⟩ (Nat.le_add_left 1 it.pos)
    rw [hcur1] at hpid hpids
    rw [hstep]
    refine ⟨?_, ?_, hpos, ev, ?_, ?_, hev, ?_, ?_⟩
    · rw [hs]
      exact hsuffix1
    · rw [hm]
      show it.elements.length - (it.pos + 1) = it.elements.length - it.pos - 1
      omega
    · simpa [isCondJumpElem] using hpid
    · simpa using hfid
    · simpa [isCondJumpElem] using hpids
    · simp [hfids]
  | false =>
    have hstep : loopStep b it false
        = handleCurrent (addFunctionEntered b ⟨it.elements, it.pos + 1⟩).1
            (addFunctionEntered b ⟨it.elements, it.pos + 1⟩).2 := rfl
    obtain ⟨fs, fm, fpos, fcur, fst⟩ :=
      addFunctionEntered_spec b ⟨it.elements, it.pos + 1⟩ (Nat.le_add_left 1 it.pos)
    obtain ⟨hs, hm, hpos, ev, hpid, hfid, hev, hpids, hfids⟩ :=
      handleCurrent_spec (addFunctionEntered b ⟨it.elements, it.pos + 1⟩).1
        (addFunctionEntered b ⟨it.elements, it.pos + 1⟩).2 fpos
    rw [fcur, hcur1] at hpid hpids
    rw [hstep]
    refine ⟨?_, ?_, hpos, [Event.funcEnter b.fid] ++ ev, ?_, ?_, ?_, ?_, ?_⟩
    · rw [hs, fs]
      exact hsuffix1
    · rw [hm, fm]
      show it.elements.length - (it.pos + 1) = it.elements.length - it.pos - 1
      omega
    · rw [hpid, fst]
      simp [isCondJumpElem]
    · rw [hfid, fst]
      simp
    · rw [hev, fst]
      simp
    · rw [pids_append, hpids, fst]
      simp [pids, isCondJumpElem]
    · rw [fids_append, hfids]
      simp [fids]

/-- Master lemma for the walker loop: it appends, to the event trace, one
predicate-probe event per conditional branch of the not-yet-visited suffix
(with consecutive predicate ids starting at the current counter) plus one
function-entered event if the pass has not yet inserted one and the suffix
is nonempty, and it advances the two counters accordingly. -/
theorem instrumentLoopFuel_spec (fuel : Nat) :
    ∀ (b : InstrState) (it : ListIterator) (entered : Bool),
    it.elements.length - it.pos ≤ fuel →
    ∃ ev,
      (instrumentLoopFuel fuel b it entered).1.pid
          = b.pid + countCondJumps (it.elements.drop it.pos) ∧
      (instrumentLoopFuel fuel b it entered).1.fid
          = b.fid + (if entered = true ∨ it.elements.drop it.pos = [] then 0 else 1) ∧
      (instrumentLoopFuel fuel b it entered).1.events = b.events ++ ev ∧
      pids ev = List.range' b.pid (countCondJumps (it.elements.drop it.pos)) ∧
      fids ev = List.range' b.fid
          (if entered = true ∨ it.elements.drop it.pos = [] then 0 else 1) := by
  induction fuel with
  | zero =>
    intro b it entered hf
    have hnil : it.elements.drop it.pos = [] := List.drop_eq_nil_of_le (by omega)
    refine ⟨[], ?_, ?_, ?_, ?_, ?_⟩ <;>
      simp [instrumentLoopFuel, hnil, countCondJumps, pids, fids]
  | succ fuel ih =>
    intro b it entered hf
    by_cases hlt : it.pos < it.elements.length
    · obtain ⟨cur, rest, hdrop⟩ : ∃ cur rest, it.elements.drop it.pos = cur :: rest := by
        cases hd : it.elements.drop it.pos with
        | nil => exact absurd (List.drop_eq_nil_iff.mp hd) (by omega)
        | cons c r => exact ⟨c, r, rfl⟩
      have hcnt : countCondJumps (cur :: rest)
          = countCondJumps rest + (if isCondB cur then 1 else 0) := by
        simp [countCondJumps, List.countP_cons]
      obtain ⟨hs, hm, hpos, ev1, spid, sfid, sev, spids, sfids⟩ :=
        loopStep_spec b it entered cur rest hdrop
      obtain ⟨ev2, ipid, ifid, iev, ipids, ifids⟩ :=
        ih (loopStep b it entered).1 (loopStep b it entered).2 true (by rw [hm]; omega)
      have hunf : instrumentLoopFuel (fuel + 1) b it entered
          = instrumentLoopFuel fuel (loopStep b it entered).1 (loopStep b it entered).2 true := by
        simp [instrumentLoopFuel, hlt]
      rw [hs] at ipid ifid ipids ifids
      rw [hunf, hdrop]
      refine ⟨ev1 ++ ev2, ?_, ?_, ?_, ?_, ?_⟩
      · rw [ipid, spid, hcnt]
        omega
      · rw [ifid, sfid]
        cases entered <;> simp
      · rw [iev, sev, List.append_assoc]
      · rw [spid] at ipids
        rw [pids_append, spids, ipids, List.range'_append_1, hcnt]
      · simp only [true_or, if_pos] at ifids
        rw [fids_append, sfids, ifids]
        cases entered <;> simp
    · have hnil : it.elements.drop it.pos = [] := List.drop_eq_nil_of_le (by omega)
      have hunf : instrumentLoopFuel (fuel + 1) b it entered = (b, it.elements) := by
        simp [instrumentLoopFuel, hlt]
      refine ⟨[], ?_, ?_, ?_, ?_, ?_⟩ <;>
        simp [hunf, hnil, countCondJumps, pids, fids]

/-- Specialisation of the master lemma to `instrumentSeq`: one pass over a
unit with `k` conditional branches emits events carrying exactly the
predicate ids `pid, pid+1, ..., pid+k-1` and, when the unit is nonempty,
exactly one function-entered event carrying the current function id. -/
theorem instrumentSeq_spec (b : InstrState) (l : List BInstr) :
    ∃ ev,
      (instrumentSeq b l).1.pid = b.pid + countCondJumps l ∧
      (instrumentSeq b l).1.fid = b.fid + (if l = [] then 0 else 1) ∧
      (instrumentSeq b l).1.events = b.events ++ ev ∧
      pids ev = List.range' b.pid (countCondJumps l) ∧
      fids ev = List.range' b.fid (if l = [] then 0 else 1) := by
  obtain ⟨ev, h1, h2, h3, h4, h5⟩ :=
    instrumentLoopFuel_spec l.length b ⟨l, 0⟩ false (by simp)
  have e1 : (⟨l, 0⟩ : ListIterator).elements.drop (⟨l, 0⟩ : ListIterator).pos = l :=
    List.drop_zero l
  rw [e1] at h1 h2 h4 h5
  simp only [Bool.false_eq_true, false_or] at h2 h5
  exact ⟨ev, h1, h2, h3, h4, h5⟩

/-- Relation between an instrumenter state and a later one: the event trace
has only been extended, the counters have only grown, and the predicate
(resp. function) ids of the newly appended events are exactly the
consecutive ids the predicate (resp. function) counter passed through.
Every operation of the instrumenter preserves this relation, which yields
the global id uniqueness/monotonicity property. -/
def TraceExtends (s t : InstrState) : Prop :=
  s.pid ≤ t.pid ∧ s.fid ≤ t.fid ∧
  ∃ E, t.events = s.events ++ E ∧
    pids E = List.range' s.pid (t.pid - s.pid) ∧
    fids E = List.range' s.fid (t.fid - s.fid)

theorem TraceExtends.refl (s : InstrState) : TraceExtends s s :=
  ⟨Nat.le_refl _, Nat.le_refl _, [], by simp, by simp [pids], by simp [fids]⟩

theorem range'_glue (a b c : Nat) (hab : a ≤ b) (hbc : b ≤ c) :
    List.range' a (b - a) ++ List.range' b (c - b) = List.range' a (c - a) := by
  have e : b = a + (b - a) := by omega
  nth_rewrite 2 [e]
  rw [List.range'_append_1]
  congr 1
  omega

theorem TraceExtends.trans {s t u : InstrState}
    (h1 : TraceExtends s t) (h2 : TraceExtends t u) : TraceExtends s u := by
  obtain ⟨hp1, hf1, E1, he1, hpi1, hfi1⟩ := h1
  obtain ⟨hp2, hf2, E2, he2, hpi2, hfi2⟩ := h2
  refine ⟨Nat.le_trans hp1 hp2, Nat.le_trans hf1 hf2, E1 ++ E2, ?_, ?_, ?_⟩
  · rw [he2, he1, List.append_assoc]
  · rw [pids_append, hpi1, hpi2, range'_glue s.pid t.pid u.pid hp1 hp2]
  · rw [fids_append, hfi1, hfi2, range'_glue s.fid t.fid u.fid hf1 hf2]

theorem instrumentSeq_te (b : InstrState) (l : List BInstr) :
    TraceExtends b (instrumentSeq b l).1 := by
  obtain ⟨ev, h1, h2, h3, h4, h5⟩ := instrumentSeq_spec b l
  refine ⟨by omega, by omega, ev, h3, ?_, ?_⟩
  · rw [h4]
    congr 1
    omega
  · rw [h5]
    congr 1
    omega

theorem instrumentConstsAux_te (f : InstrState → CodeObj → InstrState × CodeObj)
    (hf : ∀ b c, TraceExtends b (f b c).1) (cs : List ConstEntry) :
    ∀ b : InstrState, TraceExtends b (instrumentConstsAux f b cs).1 := by
  induction cs with
  | nil => intro b; exact TraceExtends.refl b
  | cons c rest ih =>
    intro b
    cases c with
    | code cc => exact (hf b cc).trans (ih (f b cc).1)
    | plain v => exact ih b

theorem instrumentCodeFuel_te (fuel : Nat) :
    ∀ (b : InstrState) (c : CodeObj), TraceExtends b (instrumentCodeFuel fuel b c).1 := by
  induction fuel with
  | zero => intro b c; exact TraceExtends.refl b
  | succ fuel ih =>
    intro b c
    cases c with
    | mk consts instrs =>
      exact (instrumentConstsAux_te _ ih consts b).trans (instrumentSeq_te _ instrs)

theorem instrument_function_te (b : InstrState) (f : PyFunction) :
    TraceExtends b (instrument_function b f).st := by
  unfold instrument_function
  by_cases h : f.attrs.contains "instrumented" = true
  · rw [if_pos h]
    exact TraceExtends.refl b
  · rw [if_neg h]
    exact instrumentCodeFuel_te (codeSize f.code) b f.code

theorem walkInstrumentFunction_te (st : WalkSt) (fid : Nat) :
    TraceExtends st.inst (walkInstrumentFunction st fid).inst := by
  cases h : lookupFunc st.funcs fid with
  | none =>
    simp only [walkInstrumentFunction, h]
    exact TraceExtends.refl _
  | some f =>
    simp only [walkInstrumentFunction, h]
    split
    · exact instrument_function_te st.inst f
    · exact TraceExtends.refl _

theorem instrumentMembersAux_te (f : Nat → WalkSt → WalkSt)
    (hf : ∀ (oid : Nat) (st : WalkSt), TraceExtends st.inst (f oid st).inst)
    (ms : List (String × Member)) :
    ∀ st : WalkSt, TraceExtends st.inst (instrumentMembersAux f ms st).inst := by
  induction ms with
  | nil => intro st; exact TraceExtends.refl _
  | cons m rest ih =>
    obtain ⟨nm, mem⟩ := m
    intro st
    by_cases he : st.error = true
    · rw [show instrumentMembersAux f ((nm, mem) :: rest) st = st from by
        simp [instrumentMembersAux, he]]
      exact TraceExtends.refl _
    · have hunf : instrumentMembersAux f ((nm, mem) :: rest) st
          = instrumentMembersAux f rest
              (match mem with
               | Member.func fid => walkInstrumentFunction st fid
               | Member.cls oid => f oid st
               | Member.meth oid => f oid st
               | Member.plain => st) := by
        simp [instrumentMembersAux, he]
      rw [hunf]
      cases mem with
      | func fid => exact (walkInstrumentFunction_te st fid).trans (ih _)
      | cls oid => exact (hf oid st).trans (ih _)
      | meth oid => exact (hf oid st).trans (ih _)
      | plain => exact ih st

theorem instrumentObjFuel_te (fuel : Nat) :
    ∀ (g : ObjGraph) (oid : Nat) (st : WalkSt),
      TraceExtends st.inst (instrumentObjFuel fuel g oid st).inst := by
  induction fuel with
  | zero => intro g oid st; exact TraceExtends.refl _
  | succ fuel ih =>
    intro g oid st
    by_cases he : st.error = true
    · rw [show instrumentObjFuel (fuel + 1) g oid st = st from by simp [instrumentObjFuel, he]]
      exact TraceExtends.refl _
    · by_cases hseen : oid ∈ st.seen
      · rw [show instrumentObjFuel (fuel + 1) g oid st = st from by
          simp [instrumentObjFuel, he, hseen]]
        exact TraceExtends.refl _
      · cases hm : lookupMembers g oid with
        | none =>
          rw [show instrumentObjFuel (fuel + 1) g oid st = { st with seen := oid :: st.seen }
              from by simp [instrumentObjFuel, he, hseen, hm]]
          exact TraceExtends.refl _
        | some ms =>
          rw [show instrumentObjFuel (fuel + 1) g oid st
              = instrumentMembersAux (instrumentObjFuel fuel g) ms
                  { st with seen := oid :: st.seen }
              from by simp [instrumentObjFuel, he, hseen, hm]]
          exact instrumentMembersAux_te (instrumentObjFuel fuel g) (ih g) ms
            { st with seen := oid :: st.seen }

/-! Lemmas about the seen set, the cost measure and the fuel of the
object-graph walk. -/

theorem walkInstrumentFunction_seen (st : WalkSt) (fid : Nat) :
    (walkInstrumentFunction st fid).seen = st.seen := by
  cases h : lookupFunc st.funcs fid with
  | none => simp only [walkInstrumentFunction, h]
  | some f =>
    simp only [walkInstrumentFunction, h]
    split <;> rfl

theorem walkInstrumentFunction_fuelOut (st : WalkSt) (fid : Nat) :
    (walkInstrumentFunction st fid).fuelOut = st.fuelOut := by
  cases h : lookupFunc st.funcs fid with
  | none => simp only [walkInstrumentFunction, h]
  | some f =>
    simp only [walkInstrumentFunction, h]
    split <;> rfl

theorem instrumentMembersAux_unfold_cons (f : Nat → WalkSt → WalkSt)
    (nm : String) (mem : Member) (rest : List (String × Member)) (st : WalkSt)
    (he : ¬ st.error = true) :
    instrumentMembersAux f ((nm, mem) :: rest) st
      = instrumentMembersAux f rest
          (match mem with
           | Member.func fid => walkInstrumentFunction st fid
           | Member.cls oid => f oid st
           | Member.meth oid => f oid st
           | Member.plain => st) := by
  simp [instrumentMembersAux, he]

theorem instrumentMembersAux_seen_mono (f : Nat → WalkSt → WalkSt)
    (hf : ∀ (oid : Nat) (st : WalkSt), st.seen ⊆ (f oid st).seen)
    (ms : List (String × Member)) :
    ∀ st : WalkSt, st.seen ⊆ (instrumentMembersAux f ms st).seen := by
  induction ms with
  | nil => intro st; exact fun a ha => ha
  | cons m rest ih =>
    obtain ⟨nm, mem⟩ := m
    intro st
    by_cases he : st.error = true
    · rw [show instrumentMembersAux f ((nm, mem) :: rest) st = st from by
        simp [instrumentMembersAux, he]]
      exact fun a ha => ha
    · rw [instrumentMembersAux_unfold_cons f nm mem rest st he]
      cases mem with
      | func fid =>
        refine List.Subset.trans ?_ (ih _)
        rw [walkInstrumentFunction_seen]
        exact fun a ha => ha
      | cls oid => exact (hf oid st).trans (ih _)
      | meth oid => exact (hf oid st).trans (ih _)
      | plain => exact ih st

theorem instrumentObjFuel_seen_mono (fuel : Nat) :
    ∀ (g : ObjGraph) (oid : Nat) (st : WalkSt),
      st.seen ⊆ (instrumentObjFuel fuel g oid st).seen := by
  induction fuel with
  | zero => intro g oid st; exact fun a ha => ha
  | succ fuel ih =>
    intro g oid st
    by_cases he : st.error = true
    · rw [show instrumentObjFuel (fuel + 1) g oid st = st from by simp [instrumentObjFuel, he]]
      exact fun a ha => ha
    · by_cases hseen : oid ∈ st.seen
      · rw [show instrumentObjFuel (fuel + 1) g oid st = st from by
          simp [instrumentObjFuel, he, hseen]]
        exact fun a ha => ha
      · cases hm : lookupMembers g oid with
        | none =>
          rw [show instrumentObjFuel (fuel + 1) g oid st = { st with seen := oid :: st.seen }
              from by simp [instrumentObjFuel, he, hseen, hm]]
          exact List.subset_cons_self oid st.seen
        | some ms =>
          rw [show instrumentObjFuel (fuel + 1) g oid st
              = instrumentMembersAux (instrumentObjFuel fuel g) ms
                  { st with seen := oid :: st.seen }
              from by simp [instrumentObjFuel, he, hseen, hm]]
          exact (List.subset_cons_self oid st.seen).trans
            (instrumentMembersAux_seen_mono (instrumentObjFuel fuel g) (ih g) ms
              { st with seen := oid :: st.seen })

theorem instrumentMembersAux_nodup (f : Nat → WalkSt → WalkSt)
    (hf : ∀ (oid : Nat) (st : WalkSt), st.seen.Nodup → (f oid st).seen.Nodup)
    (ms : List (String × Member)) :
    ∀ st : WalkSt, st.seen.Nodup → (instrumentMembersAux f ms st).seen.Nodup := by
  induction ms with
  | nil => intro st hn; exact hn
  | cons m rest ih =>
    obtain ⟨nm, mem⟩ := m
    intro st hn
    by_cases he : st.error = true
    · rw [show instrumentMembersAux f ((nm, mem) :: rest) st = st from by
        simp [instrumentMembersAux, he]]
      exact hn
    · rw [instrumentMembersAux_unfold_cons f nm mem rest st he]
      cases mem with
      | func fid =>
        refine ih _ ?_
        rw [walkInstrumentFunction_seen]
        exact hn
      | cls oid => exact ih _ (hf oid st hn)
      | meth oid => exact ih _ (hf oid st hn)
      | plain => exact ih st hn

theorem instrumentObjFuel_nodup (fuel : Nat) :
    ∀ (g : ObjGraph) (oid : Nat) (st : WalkSt),
      st.seen.Nodup → (instrumentObjFuel fuel g oid st).seen.Nodup := by
  induction fuel with
  | zero => intro g oid st hn; exact hn
  | succ fuel ih =>
    intro g oid st hn
    by_cases he : st.error = true
    · rw [show instrumentObjFuel (fuel + 1) g oid st = st from by simp [instrumentObjFuel, he]]
      exact hn
    · by_cases hseen : oid ∈ st.seen
      · rw [show instrumentObjFuel (fuel + 1) g oid st = st from by
          simp [instrumentObjFuel, he, hseen]]
        exact hn
      · have hn1 : (oid :: st.seen).Nodup := List.nodup_cons.mpr ⟨hseen, hn⟩
        cases hm : lookupMembers g oid with
        | none =>
          rw [show instrumentObjFuel (fuel + 1) g oid st = { st with seen := oid :: st.seen }
              from by simp [instrumentObjFuel, he, hseen, hm]]
          exact hn1
        | some ms =>
          rw [show instrumentObjFuel (fuel + 1) g oid st
              = instrumentMembersAux (instrumentObjFuel fuel g) ms
                  { st with seen := oid :: st.seen }
              from by simp [instrumentObjFuel, he, hseen, hm]]
          exact instrumentMembersAux_nodup (instrumentObjFuel fuel g) (ih g) ms
            { st with seen := oid :: st.seen } hn1

theorem cost_sublist_sum (objs : List (Nat × List (String × Member))) (s1 s2 : List Nat)
    (h : s1 ⊆ s2) :
    ((objs.filter fun p => decide (¬ p.1 ∈ s2)).map objWeight).sum
      ≤ ((objs.filter fun p => decide (¬ p.1 ∈ s1)).map objWeight).sum := by
  have hsub : List.Sublist (objs.filter fun p => decide (¬ p.1 ∈ s2))
      (objs.filter fun p => decide (¬ p.1 ∈ s1)) := by
    apply List.monotone_filter_right
    intro a ha
    simp only [decide_eq_true_eq] at ha ⊢
    exact fun hmem => ha (h hmem)
  exact List.Sublist.sum_le_sum (hsub.map objWeight) (fun a _ => Nat.zero_le a)

theorem cost_mono (g : ObjGraph) (s1 s2 : List Nat) (h : s1 ⊆ s2) :
    cost g s2 ≤ cost g s1 :=
  cost_sublist_sum g.objs s1 s2 h

theorem cost_remove_aux (objs : List (Nat × List (String × Member))) (seen : List Nat)
    (oid : Nat) (ms : List (String × Member)) (hns : ¬ oid ∈ seen)
    (hlk : (objs.find? fun p => p.1 == oid).map (fun p => p.2) = some ms) :
    ((objs.filter fun p => decide (¬ p.1 ∈ oid :: seen)).map objWeight).sum + 1 + ms.length
      ≤ ((objs.filter fun p => decide (¬ p.1 ∈ seen)).map objWeight).sum := by
  induction objs with
  | nil => simp at hlk
  | cons a rest ih =>
    by_cases ha : a.1 = oid
    · have hbeq : (a.1 == oid) = true := by simp [ha]
      rw [List.find?_cons_of_pos rest hbeq] at hlk
      simp only [Option.map_some', Option.some.injEq] at hlk
      rw [List.filter_cons_of_neg (by simp [ha]), List.filter_cons_of_pos (by simp [ha, hns])]
      have hmono := cost_sublist_sum rest seen (oid :: seen) (List.subset_cons_self oid seen)
      have hw : objWeight a = 1 + ms.length := by simp [objWeight, hlk]
      simp only [List.map_cons, List.sum_cons]
      omega
    · have hbeq : ¬ ((a.1 == oid) = true) := by simp [ha]
      rw [List.find?_cons_of_neg rest hbeq] at hlk
      by_cases hmem : a.1 ∈ seen
      · rw [List.filter_cons_of_neg (by simp [hmem]), List.filter_cons_of_neg (by simp [hmem])]
        exact ih hlk
      · rw [List.filter_cons_of_pos (by simp [hmem, ha]), List.filter_cons_of_pos (by simp [hmem])]
        simp only [List.map_cons, List.sum_cons]
        have := ih hlk
        omega

theorem cost_remove (g : ObjGraph) (seen : List Nat) (oid : Nat)
    (ms : List (String × Member)) (hns : ¬ oid ∈ seen)
    (hlk : lookupMembers g oid = some ms) :
    cost g (oid :: seen) + 1 + ms.length ≤ cost g seen :=
  cost_remove_aux g.objs seen oid ms hns hlk

theorem instrumentMembersAux_fuelOut (g : ObjGraph) (d : Nat)
    (IH : ∀ (oid : Nat) (st : WalkSt), cost g st.seen + 1 ≤ d →
      (instrumentObjFuel d g oid st).fuelOut = st.fuelOut)
    (ms : List (String × Member)) :
    ∀ st : WalkSt, cost g st.seen + ms.length ≤ d →
      (instrumentMembersAux (instrumentObjFuel d g) ms st).fuelOut = st.fuelOut := by
  induction ms with
  | nil => intro st h; rfl
  | cons m rest ih =>
    obtain ⟨nm, mem⟩ := m
    intro st h
    have hlen : ((nm, mem) :: rest).length = rest.length + 1 := rfl
    rw [hlen] at h
    by_cases he : st.error = true
    · rw [show instrumentMembersAux (instrumentObjFuel d g) ((nm, mem) :: rest) st = st from by
        simp [instrumentMembersAux, he]]
    · rw [instrumentMembersAux_unfold_cons _ nm mem rest st he]
      cases mem with
      | func fid =>
        rw [ih (walkInstrumentFunction st fid)
            (by rw [walkInstrumentFunction_seen]; omega),
          walkInstrumentFunction_fuelOut]
      | cls oid =>
        have hb : cost g st.seen + 1 ≤ d := by omega
        have hc : cost g (instrumentObjFuel d g oid st).seen ≤ cost g st.seen :=
          cost_mono g st.seen _ (instrumentObjFuel_seen_mono d g oid st)
        rw [ih (instrumentObjFuel d g oid st) (by omega), IH oid st hb]
      | meth oid =>
        have hb : cost g st.seen + 1 ≤ d := by omega
        have hc : cost g (instrumentObjFuel d g oid st).seen ≤ cost g st.seen :=
          cost_mono g st.seen _ (instrumentObjFuel_seen_mono d g oid st)
        rw [ih (instrumentObjFuel d g oid st) (by omega), IH oid st hb]
      | plain => exact ih st (by omega)

theorem instrumentObjFuel_fuelOut (d : Nat) :
    ∀ (g : ObjGraph) (oid : Nat) (st : WalkSt), cost g st.seen + 1 ≤ d →
      (instrumentObjFuel d g oid st).fuelOut = st.fuelOut := by
  induction d with
  | zero => intro g oid st h; exact absurd h (by omega)
  | succ d ihd =>
    intro g oid st h
    by_cases he : st.error = true
    · rw [show instrumentObjFuel (d + 1) g oid st = st from by simp [instrumentObjFuel, he]]
    · by_cases hseen : oid ∈ st.seen
      · rw [show instrumentObjFuel (d + 1) g oid st = st from by
          simp [instrumentObjFuel, he, hseen]]
      · cases hm : lookupMembers g oid with
        | none =>
          rw [show instrumentObjFuel (d + 1) g oid st = { st with seen := oid :: st.seen }
              from by simp [instrumentObjFuel, he, hseen, hm]]
        | some ms =>
          rw [show instrumentObjFuel (d + 1) g oid st
              = instrumentMembersAux (instrumentObjFuel d g) ms
                  { st with seen := oid :: st.seen }
              from by simp [instrumentObjFuel, he, hseen, hm]]
          have hrm := cost_remove g st.seen oid ms hseen hm
          rw [instrumentMembersAux_fuelOut g d (fun oid' st' hb => ihd g oid' st' hb) ms
              { st with seen := oid :: st.seen }
              (by show cost g (oid :: st.seen) + ms.length ≤ d; omega)]

theorem cost_le_graphFuel (g : ObjGraph) (seen : List Nat) :
    cost g seen + 1 ≤ graphFuel g := by
  have hsub : List.Sublist (g.objs.filter fun p => decide (¬ p.1 ∈ seen)) g.objs :=
    List.filter_sublist _
  have hle := List.Sublist.sum_le_sum (hsub.map objWeight) (fun a _ => Nat.zero_le a)
  show cost g seen + 1 ≤ (g.objs.map objWeight).sum + 1
  have : cost g seen ≤ (g.objs.map objWeight).sum := hle
  omega

/-! Lemmas about the globals dictionary. -/

theorem dictLookup_dictSet_self (g : List (String × PyValue)) (k : String) (v : PyValue) :
    dictLookup (dictSet g k v) k = some v := by
  induction g with
  | nil => simp [dictSet, dictLookup]
  | cons a rest ih =>
    obtain ⟨k', v'⟩ := a
    by_cases hk : k' = k
    · simp [dictSet, dictLookup, hk]
    · simp [dictSet, dictLookup, hk, ih]

theorem dictLookup_dictSet_other (g : List (String × PyValue)) (k k0 : String) (v : PyValue)
    (h : k0 ≠ k) : dictLookup (dictSet g k v) k0 = dictLookup g k0 := by
  induction g with
  | nil => simp [dictSet, dictLookup, Ne.symm h]
  | cons a rest ih =>
    obtain ⟨k', v'⟩ := a
    by_cases hk : k' = k
    · subst hk
      simp [dictSet, dictLookup, Ne.symm h, ih]
    · by_cases hk0 : k' = k0
      · simp [dictSet, dictLookup, hk, hk0, h]
      · simp [dictSet, dictLookup, hk, hk0, ih]

/-! Concrete fixtures used in scenario theorems, counterexamples and
witnesses. -/

/-- Fresh instrumenter state (a newly constructed `BranchInstrumentation`). -/
def stZero : InstrState := ⟨0, 0, []⟩

def loadA : BInstr := .instr ⟨"LOAD_FAST", some (Arg.name "a")⟩

def loadB : BInstr := .instr ⟨"LOAD_FAST", some (Arg.name "b")⟩

def cmpLt : BInstr := .instr ⟨"COMPARE_OP", some (Arg.cmp "<")⟩

def jmpF : BInstr := .instr ⟨"JUMP_IF_FALSE", some (Arg.label 0)⟩

def jmpPF : BInstr := .instr ⟨"POP_JUMP_IF_FALSE", some (Arg.label 0)⟩

/-- Cursor state standing at a conditional jump whose immediately preceding
element is a comparison. -/
def itCmp : ListIterator := ⟨[cmpLt, jmpPF], 2⟩

/-- Cursor state standing at a conditional jump with no previous element. -/
def itFirst : ListIterator := ⟨[jmpPF], 1⟩

/-- A plain, not-yet-instrumented function with empty code. -/
def fEmpty : PyFunction := ⟨[], [], CodeObj.mk [] []⟩

/-- A function already carrying the `instrumented` marker attribute. -/
def fFlagged : PyFunction := ⟨["instrumented"], [], CodeObj.mk [] []⟩

/-- A function whose globals already bind `tracer` (to a non-tracer value)
and one unrelated name. -/
def fPre : PyFunction :=
  ⟨[], [("tracer", PyValue.intVal 5), ("x", PyValue.intVal 1)], CodeObj.mk [] []⟩

/-- An object graph whose root exposes the same function object under two
member names, i.e. one executable unit reachable through two paths. -/
def gShared : ObjGraph := ⟨[(0, [("f", Member.func 0), ("g", Member.func 0)])]⟩

/-! Claim theorems. -/

/-- C1 (counterexample): the claim fails on the degenerate unit with zero
instructions.  The walker loop inserts the function-entered probe only when
it visits a first instruction, so the empty unit receives no function-entry
probe at all — not exactly one as claimed. -/
theorem probe_counts_empty_unit_cex :
    ¬ ((fids (instrumentSeq stZero []).1.events).length = 1) := by decide

/-- C1 (amended): for every code unit with a nonempty instruction sequence
containing exactly `k` conditional-branch instructions, the single pass of
`_instrument_code_recursive` over that sequence inserts exactly `k`
predicate probes (one per conditional branch, advancing the predicate
counter by `k`) and exactly one function-entry probe (advancing the function
counter by one), regardless of the unit's own nesting depth (the starting
counter values `p`, `f` are arbitrary). -/
theorem probe_counts_per_unit (p f : Nat) (l : List BInstr) (h : l ≠ []) :
    (pids (instrumentSeq ⟨p, f, []⟩ l).1.events).length = countCondJumps l ∧
    (fids (instrumentSeq ⟨p, f, []⟩ l).1.events).length = 1 ∧
    (instrumentSeq ⟨p, f, []⟩ l).1.pid = p + countCondJumps l ∧
    (instrumentSeq ⟨p, f, []⟩ l).1.fid = f + 1 := by
  obtain ⟨ev, h1, h2, h3, h4, h5⟩ := instrumentSeq_spec ⟨p, f, []⟩ l
  have hinit : (⟨p, f, []⟩ : InstrState).events = [] := rfl
  rw [hinit, List.nil_append] at h3
  have hif : (if l = [] then 0 else 1) = 1 := if_neg h
  rw [hif] at h2 h5
  refine ⟨?_, ?_, h1, h2⟩
  · rw [h3, h4, List.length_range']
  · rw [h3, h5, List.length_range']

/-- C1 (witness for the amended theorem). -/
theorem probe_counts_per_unit_witness :
    ([jmpPF] ≠ ([] : List BInstr)) ∧
    ((pids (instrumentSeq ⟨0, 0, []⟩ [jmpPF]).1.events).length = countCondJumps [jmpPF] ∧
     (fids (instrumentSeq ⟨0, 0, []⟩ [jmpPF]).1.events).length = 1 ∧
     (instrumentSeq ⟨0, 0, []⟩ [jmpPF]).1.pid = 0 + countCondJumps [jmpPF] ∧
     (instrumentSeq ⟨0, 0, []⟩ [jmpPF]).1.fid = 0 + 1) :=
  ⟨by decide, probe_counts_per_unit 0 0 [jmpPF] (by decide)⟩

/-- C2: at a conditional-branch element, if the guard finds an immediately
preceding `COMPARE_OP` instruction then the comparison-predicate probe
(carrying the next predicate id and the comparison operator) is spliced one
position back from the branch, i.e. before the comparison; for every other
conditional branch the boolean-predicate probe is spliced immediately before
the branch.  In both cases the cursor advances past the probe. -/
theorem branch_classification (b : InstrState) (it : ListIterator)
    (hc : isCondJumpElem it.current = true) :
    (prevIsCompare it = true →
      ∃ pInstr, it.previous = some (BInstr.instr pInstr) ∧ pInstr.name = "COMPARE_OP" ∧
        handleCurrent b it =
          ({ b with
              pid := b.pid + 1,
              events := b.events ++ [Event.cmpPred b.pid pInstr.arg] },
           ⟨it.elements.take (it.pos - 1 - 1) ++ cmpPredicateStmts b.pid pInstr.arg
              ++ it.elements.drop (it.pos - 1 - 1),
            it.pos + 9⟩)) ∧
    (prevIsCompare it = false →
      handleCurrent b it =
        ({ b with pid := b.pid + 1, events := b.events ++ [Event.boolPred b.pid] },
         ⟨it.elements.take (it.pos - 1 - 0) ++ boolPredicateStmts b.pid
            ++ it.elements.drop (it.pos - 1 - 0),
          it.pos + 8⟩)) := by
  constructor
  · intro hp
    have hprev : ∃ pInstr, it.previous = some (BInstr.instr pInstr)
        ∧ pInstr.name = "COMPARE_OP" := by
      unfold prevIsCompare at hp
      rcases hand : it.previous with _ | x
      · rw [hand] at hp
        simp at hp
      · cases x with
        | instr pi =>
          refine ⟨pi, rfl, ?_⟩
          rw [hand] at hp
          simp [Bool.and_eq_true] at hp
          exact hp.2
        | label lb =>
          rw [hand] at hp
          simp at hp
    obtain ⟨pInstr, hprev1, hprev2⟩ := hprev
    refine ⟨pInstr, hprev1, hprev2, ?_⟩
    unfold handleCurrent
    rw [if_pos hc, if_pos hp]
    unfold addCmpPredicate
    have harg : prevCmpArg it = pInstr.arg := by
      unfold prevCmpArg
      rw [hprev1]
    rw [harg]
    rfl
  · intro hp
    unfold handleCurrent
    rw [if_pos hc, if_neg (by simp [hp])]
    rfl

/-- C2 (witness): a cursor standing at `POP_JUMP_IF_FALSE` immediately
preceded by `COMPARE_OP <`. -/
theorem branch_classification_witness :
    isCondJumpElem itCmp.current = true ∧ prevIsCompare itCmp = true ∧
    ∃ pInstr, itCmp.previous = some (BInstr.instr pInstr) ∧ pInstr.name = "COMPARE_OP" ∧
      handleCurrent stZero itCmp =
        ({ stZero with
            pid := stZero.pid + 1,
            events := stZero.events ++ [Event.cmpPred stZero.pid pInstr.arg] },
         ⟨itCmp.elements.take (itCmp.pos - 1 - 1) ++ cmpPredicateStmts stZero.pid pInstr.arg
            ++ itCmp.elements.drop (itCmp.pos - 1 - 1),
          itCmp.pos + 9⟩) :=
  ⟨by decide, by decide, (branch_classification stZero itCmp (by decide)).1 (by decide)⟩

/-- C3: each of the three probe instruction sequences (function-entered,
boolean-predicate, comparison-predicate) has net evaluation-stack effect
zero from its entry to its exit, for every id and comparison argument. -/
theorem probes_stack_neutral (pid fid : Nat) (arg : Option Arg) :
    netStackEffect (boolPredicateStmts pid) = 0 ∧
    netStackEffect (cmpPredicateStmts pid arg) = 0 ∧
    netStackEffect (functionEnteredStmts fid) = 0 :=
  ⟨rfl, rfl, rfl⟩

/-- C4: calling `instrument_function` on a function already carrying the
`instrumented` marker fails the assertion before any mutation (the function
and the instrumenter state are returned untouched and the mutation trace is
empty); on the successful path the assertion passes, the function ends up
marked, and the ordered mutation trace shows the mark being set first, then
the tracer binding, then the code replacement. -/
theorem double_instrumentation_guard (b : InstrState) (f : PyFunction) :
    (f.attrs.contains "instrumented" = true →
       instrument_function b f = ⟨false, b, f, []⟩) ∧
    (f.attrs.contains "instrumented" = false →
       (instrument_function b f).ok = true ∧
       (instrument_function b f).fn.attrs.contains "instrumented" = true ∧
       (instrument_function b f).trace
         = [Mutation.markAttr "instrumented", Mutation.bindGlobal "tracer",
            Mutation.replaceCode]) := by
  constructor
  · intro h
    unfold instrument_function
    rw [if_pos h]
  · intro h
    unfold instrument_function
    rw [if_neg (by rw [h]; simp)]
    refine ⟨rfl, ?_, rfl⟩
    show ((f.attrs ++ ["instrumented"]).contains "instrumented") = true
    simp

/-- C4 (witness): both branches instantiated on concrete functions. -/
theorem double_instrumentation_guard_witness :
    (fFlagged.attrs.contains "instrumented" = true ∧
      instrument_function stZero fFlagged = ⟨false, stZero, fFlagged, []⟩) ∧
    (fEmpty.attrs.contains "instrumented" = false ∧
      ((instrument_function stZero fEmpty).ok = true ∧
       (instrument_function stZero fEmpty).fn.attrs.contains "instrumented" = true ∧
       (instrument_function stZero fEmpty).trace
         = [Mutation.markAttr "instrumented", Mutation.bindGlobal "tracer",
            Mutation.replaceCode])) :=
  ⟨⟨by decide, (double_instrumentation_guard stZero fFlagged).1 (by decide)⟩,
   ⟨by decide, (double_instrumentation_guard stZero fEmpty).2 (by decide)⟩⟩

/-- C5: across one `instrument(rootObject)` invocation of a fresh
`BranchInstrumentation`, the predicate ids carried by the emitted events, in
insertion order, are exactly `0, 1, 2, ...` — distinct non-negative integers
in strictly increasing order — and independently the function-entry ids are
exactly `0, 1, 2, ...` from the separate function counter. -/
theorem predicate_and_function_ids_monotone (g : ObjGraph)
    (funcs0 : List (Nat × PyFunction)) (root : Nat) :
    pids (instrument g funcs0 root).inst.events
        = List.range (instrument g funcs0 root).inst.pid ∧
    fids (instrument g funcs0 root).inst.events
        = List.range (instrument g funcs0 root).inst.fid ∧
    (pids (instrument g funcs0 root).inst.events).Nodup ∧
    (fids (instrument g funcs0 root).inst.events).Nodup ∧
    List.Pairwise (· < ·) (pids (instrument g funcs0 root).inst.events) ∧
    List.Pairwise (· < ·) (fids (instrument g funcs0 root).inst.events) := by
  obtain ⟨hp, hf, E, he, hpi, hfi⟩ :=
    instrumentObjFuel_te (graphFuel g) g root ⟨[], funcs0, ⟨0, 0, []⟩, false, false⟩
  have hini : ((⟨[], funcs0, ⟨0, 0, []⟩, false, false⟩ : WalkSt)).inst.events
      = ([] : List Event) := rfl
  rw [hini, List.nil_append] at he
  have hpids : pids (instrument g funcs0 root).inst.events
      = List.range (instrument g funcs0 root).inst.pid := by
    show pids (instrumentObjFuel (graphFuel g) g root
        ⟨[], funcs0, ⟨0, 0, []⟩, false, false⟩).inst.events = _
    rw [he, hpi, List.range_eq_range']
    rfl
  have hfids : fids (instrument g funcs0 root).inst.events
      = List.range (instrument g funcs0 root).inst.fid := by
    show fids (instrumentObjFuel (graphFuel g) g root
        ⟨[], funcs0, ⟨0, 0, []⟩, false, false⟩).inst.events = _
    rw [he, hfi, List.range_eq_range']
    rfl
  refine ⟨hpids, hfids, ?_, ?_, ?_, ?_⟩
  · rw [hpids]
    exact List.nodup_range _
  · rw [hfids]
    exact List.nodup_range _
  · rw [hpids]
    exact List.pairwise_lt_range _
  · rw [hfids]
    exact List.pairwise_lt_range _

/-- C6: the scenario unit `[LOAD a, LOAD b, COMPARE(<), JUMP_IF_FALSE L]`
instrumented with next predicate id 7 yields, before the comparison, the
duplication of both operands (`DUP_TOP_TWO`), the call to the tracer's
`passed_cmp_predicate` hook with the duplicated operands, id `7` and
operator `<` on the stack, the discard of its result (`POP_TOP`), and then
the original comparison and jump unchanged; the function-entered probe opens
the unit. -/
theorem cmp_probe_scenario (fid : Nat) :
    instrumentSeq ⟨7, fid, []⟩ [loadA, loadB, cmpLt, jmpF]
      = (⟨8, fid + 1, [Event.funcEnter fid, Event.cmpPred 7 (some (Arg.cmp "<"))]⟩,
         functionEnteredStmts fid ++ [loadA, loadB]
           ++ cmpPredicateStmts 7 (some (Arg.cmp "<")) ++ [cmpLt, jmpF]) := rfl

/-- C7 (counterexample): on a graph where one function object is reachable
as a member through two different paths, the second visit calls
`instrument_function` again and hits the double-instrumentation assertion —
the duplicate is not silently prevented, contradicting the claim's
parenthetical. -/
theorem shared_function_double_instrumentation_cex :
    (instrument gShared [(0, fEmpty)] 0).error = true := rfl

/-- C7 (amended): every `instrument(rootObject)` call terminates — the walk
completes within the `graphFuel` bound, never reaching the artificial
fuel-exhaustion cutoff (`fuelOut` stays false), including on cyclic object
graphs — and the Seen Set makes the walk visit each distinct composite
object at most once (the final seen list is duplicate-free).  A function
object reachable as a direct member through two different paths, however,
triggers the fatal double-instrumentation assertion instead of being
skipped (see the counterexample). -/
theorem instrument_terminates_and_visits_once (g : ObjGraph)
    (funcs0 : List (Nat × PyFunction)) (root : Nat) :
    (instrument g funcs0 root).fuelOut = false ∧
    (instrument g funcs0 root).seen.Nodup := by
  constructor
  · exact instrumentObjFuel_fuelOut (graphFuel g) g root
      ⟨[], funcs0, ⟨0, 0, []⟩, false, false⟩ (cost_le_graphFuel g [])
  · exact instrumentObjFuel_nodup (graphFuel g) g root
      ⟨[], funcs0, ⟨0, 0, []⟩, false, false⟩ List.nodup_nil

/-- C8: when the walker stands at a conditional-branch element for which no
previous element exists (`has_previous` is false), the short-circuit guard
classifies it as not-a-comparison without ever inspecting the previous
element, and the boolean-predicate probe is inserted immediately before the
branch — the step is total, no error occurs. -/
theorem no_previous_yields_bool_probe (b : InstrState) (it : ListIterator)
    (hp : it.has_previous = false) (hc : isCondJumpElem it.current = true) :
    prevIsCompare it = false ∧
    handleCurrent b it =
      ({ b with pid := b.pid + 1, events := b.events ++ [Event.boolPred b.pid] },
       ⟨it.elements.take (it.pos - 1 - 0) ++ boolPredicateStmts b.pid
          ++ it.elements.drop (it.pos - 1 - 0),
        it.pos + 8⟩) := by
  have hpc : prevIsCompare it = false := by
    unfold prevIsCompare
    rw [hp]
    rfl
  refine ⟨hpc, ?_⟩
  unfold handleCurrent
  rw [if_pos hc, if_neg (by simp [hpc])]
  rfl

/-- C8 (witness): a unit whose very first element is a conditional jump. -/
theorem no_previous_yields_bool_probe_witness :
    itFirst.has_previous = false ∧ isCondJumpElem itFirst.current = true ∧
    (prevIsCompare itFirst = false ∧
     handleCurrent stZero itFirst =
       ({ stZero with
           pid := stZero.pid + 1,
           events := stZero.events ++ [Event.boolPred stZero.pid] },
        ⟨itFirst.elements.take (itFirst.pos - 1 - 0) ++ boolPredicateStmts stZero.pid
           ++ itFirst.elements.drop (itFirst.pos - 1 - 0),
         itFirst.pos + 8⟩)) :=
  ⟨by decide, by decide, no_previous_yields_bool_probe stZero itFirst (by decide) (by decide)⟩

/-- C9 (counterexample): instrumenting the unit with zero instructions via
`_instrument_code_recursive` returns it unchanged — no function-entered
probe is inserted and no function id is consumed, contradicting the claimed
"exactly the function-entered probe" and "consumes one function ID". -/
theorem empty_unit_entry_probe_cex :
    (instrumentCodeFuel (codeSize (CodeObj.mk [] [])) stZero (CodeObj.mk [] [])).1.fid = 0 ∧
    ¬ ((instrumentCodeFuel (codeSize (CodeObj.mk [] [])) stZero
        (CodeObj.mk [] [])).1.fid = 1) :=
  ⟨rfl, by decide⟩

/-- C9 (amended): instrumenting a unit whose instruction sequence is empty
inserts no probe at all and consumes no identifier: the walker loop's first
`next()` fails immediately, so the function-entered probe — which is only
inserted upon visiting a first instruction — never appears, and the unit is
returned unchanged. -/
theorem empty_unit_no_probes (b : InstrState) :
    instrumentSeq b [] = (b, []) ∧
    instrumentCodeFuel (codeSize (CodeObj.mk [] [])) b (CodeObj.mk [] [])
      = (b, CodeObj.mk [] []) :=
  ⟨rfl, rfl⟩

/-- C10 (counterexample): a call to `instrument_function` on an
already-instrumented function fails the assertion before reaching the
globals assignment, so nothing is written under `"tracer"` — the write is
not unconditional. -/
theorem tracer_binding_unconditional_cex :
    ¬ (dictLookup (instrument_function stZero fFlagged).fn.globals "tracer"
        = some PyValue.tracerObj) := by decide

/-- C10 (amended): every call to `instrument_function` on a function not
already marked instrumented writes the tracer object into the function's
global namespace under the fixed name `"tracer"`, overwriting any
pre-existing binding of that name, and leaves every other binding of the
global namespace unchanged; a call on an already-instrumented function fails
the assertion first and writes nothing. -/
theorem tracer_binding_installed (b : InstrState) (f : PyFunction)
    (h : f.attrs.contains "instrumented" = false) :
    dictLookup (instrument_function b f).fn.globals "tracer" = some PyValue.tracerObj ∧
    (∀ k : String, k ≠ "tracer" →
      dictLookup (instrument_function b f).fn.globals k = dictLookup f.globals k) := by
  have hunf : (instrument_function b f).fn.globals
      = dictSet f.globals "tracer" PyValue.tracerObj := by
    unfold instrument_function
    rw [if_neg (by rw [h]; simp)]
  rw [hunf]
  exact ⟨dictLookup_dictSet_self _ _ _,
    fun k hk => dictLookup_dictSet_other _ _ _ _ hk⟩

/-- C10 (witness for the amended theorem): a function whose globals already
bind `tracer` to a different value gets it overwritten while the unrelated
binding `x` survives. -/
theorem tracer_binding_installed_witness :
    fPre.attrs.contains "instrumented" = false ∧
    dictLookup (instrument_function stZero fPre).fn.globals "tracer"
      = some PyValue.tracerObj ∧
    dictLookup (instrument_function stZero fPre).fn.globals "x" = dictLookup fPre.globals "x" :=
  ⟨by decide, (tracer_binding_installed stZero fPre (by decide)).1,
   (tracer_binding_installed stZero fPre (by decide)).2 "x" (by decide)⟩

end Wspy
